import Mathlib

/-!
Verification of the compcomm transmission engine.

The repository contains several equivalent implementations of the same
engine.  This development embeds the two that the specification was
written from:

* namespace `Lib`    — `src/lib/transmission.ts` (the reference copy at the
  top of the file);
* namespace `Gemini` — the optimized variant (`processTransmission` with a
  processor table, the guarded analog-to-digital codec with min/max
  normalization, 256 PCM levels and exact-magnitude delta reconstruction).

JavaScript numbers are modeled as exact rationals extended with the two
non-numeric values that actually flow through this program: `NaN`
(produced by `parseInt` on a non-digit character) and `undefined`
(produced by reading past the end of an array).  Floating-point rounding
is not modeled; every arithmetic operation the engine performs is exact
over the rationals.  The trigonometric functions `Math.sin` and
`Math.atan2` are irrational-valued, so the embedding is parameterized by
abstract functions standing for them; no claim below depends on their
values.
-/

/-- A JavaScript numeric value as it occurs in this program: a finite
number (modeled exactly as a rational), `NaN`, or `undefined`. -/
inductive JsVal where
  | num : ℚ → JsVal
  | nan : JsVal
  | undef : JsVal
deriving DecidableEq, Repr

namespace JsVal

/-- JS `+` on two values: `undefined` or `NaN` operands give `NaN`. -/
def jadd : JsVal → JsVal → JsVal
  | num a, num b => num (a + b)
  | _, _ => nan

/-- JS `-` on two values. -/
def jsub : JsVal → JsVal → JsVal
  | num a, num b => num (a - b)
  | _, _ => nan

/-- JS `*` on two values. -/
def jmul : JsVal → JsVal → JsVal
  | num a, num b => num (a * b)
  | _, _ => nan

/-- JS `/` on two values.  The engine only ever divides by nonzero
constants and positive segment lengths, so the zero-divisor case
(`Infinity` in JS) is mapped to `nan`; it is unreachable. -/
def jdiv : JsVal → JsVal → JsVal
  | num a, num b => if b = 0 then nan else num (a / b)
  | _, _ => nan

/-- JS `Math.abs`; `NaN`/`undefined` give `NaN`. -/
def jabs : JsVal → JsVal
  | num a => num |a|
  | _ => nan

/-- JS `Math.round`: round half toward positive infinity, i.e.
`⌊x + 1/2⌋`.  `Math.round(NaN)` and `Math.round(undefined)` are `NaN`. -/
def jround : JsVal → JsVal
  | num a => num ((⌊a + 1/2⌋ : ℤ) : ℚ)
  | _ => nan

/-- JS `<` : any comparison involving `NaN` or `undefined` is false. -/
def jlt : JsVal → JsVal → Bool
  | num a, num b => a < b
  | _, _ => false

/-- JS `>` : any comparison involving `NaN` or `undefined` is false. -/
def jgt : JsVal → JsVal → Bool
  | num a, num b => b < a
  | _, _ => false

/-- JS `>=` : any comparison involving `NaN` or `undefined` is false. -/
def jge : JsVal → JsVal → Bool
  | num a, num b => b ≤ a
  | _, _ => false

/-- JS strict equality `===`: `NaN` is not equal to anything (itself
included); `undefined === undefined` holds. -/
def jseq : JsVal → JsVal → Bool
  | num a, num b => a = b
  | undef, undef => true
  | _, _ => false

/-- JS strict inequality `!==`. -/
def jsneq (a b : JsVal) : Bool := !(jseq a b)

/-- JS truthiness: `0`, `NaN` and `undefined` are falsy. -/
def falsy : JsVal → Bool
  | num a => a = 0
  | nan => true
  | undef => true

/-- JS `||`: the left operand unless it is falsy. -/
def jor (a b : JsVal) : JsVal := if falsy a then b else a

/-- The string a value contributes to `Array.prototype.join`:
`undefined` joins as the empty string, `NaN` as `"NaN"`.  Joins in this
program only ever see integral numbers (line-code levels and rounded
bits), `NaN` or `undefined`, so only integral formatting is modeled: an
integral rational prints as its numerator. -/
def jsToString : JsVal → String
  | num a => toString a.num
  | nan => "NaN"
  | undef => ""

end JsVal

open JsVal

/-- JS array indexing: out-of-range access yields `undefined`. -/
def jsIdx (l : List JsVal) (i : Nat) : JsVal := (l.get? i).getD JsVal.undef

/-- JS `Array.prototype.join("")` over the values of this program. -/
def jsJoin (l : List JsVal) : String := String.join (l.map JsVal.jsToString)

/-- `data.split("").map((b) => Number.parseInt(b))`: each character of
the input becomes its digit value, and any non-digit character becomes
`NaN`.  Shared verbatim by both engine variants. -/
def charToJsVal (c : Char) : JsVal :=
  if c.isDigit then JsVal.num ((c.toNat - 48 : ℕ) : ℚ) else JsVal.nan

/-- The bit sequence parsed from the raw input text. -/
def parseBits (data : String) : List JsVal := data.data.map charToJsVal

/-!
## The analog input parser

Both variants extract numeric tokens with the pattern
`-?\d*\.?\d+(?:e-?\d+)?` (case-insensitive, global) after removing
quotation-mark characters.  The scanner below is the deterministic
reading of that backtracking pattern: at each position it matches an
optional minus sign, a greedy run of digits, an optional fraction (a dot
that must be followed by at least one digit — otherwise the dot is given
back), and an optional exponent (`e`/`E`, optional minus, at least one
digit — otherwise the exponent marker is given back).  A match requires
at least one digit overall; on failure the scan advances one character,
and after a match it resumes at the end of the match, exactly as a
global regex does.
-/

/-- A matched numeric token: sign, integer digits, fraction digits, and
an optional exponent (sign and digits). -/
structure NumToken where
  neg : Bool
  intDs : List Char
  fracDs : List Char
  expPart : Option (Bool × List Char)
deriving DecidableEq, Repr

/-- The quotation-mark characters both parsers strip before scanning
(the set of the `replace` call; the backtick and the straight apostrophe
are written by code point). -/
def quoteChars : List Char :=
  ['"', '“', '”', '„', '‟', '‹', '›', '«', '»', Char.ofNat 39, Char.ofNat 96]

/-- The global `replace` of every quotation character by the empty
string, on the character sequence. -/
def stripQuotes (s : List Char) : List Char := s.filter (fun c => ¬ c ∈ quoteChars)

/-- `String.prototype.trim` on the character sequence. -/
def trimChars (s : List Char) : List Char :=
  ((s.dropWhile Char.isWhitespace).reverse.dropWhile Char.isWhitespace).reverse

/-- Greedy digit run: `(takeWhile isDigit, dropWhile isDigit)`. -/
def takeDigits (l : List Char) : List Char × List Char :=
  (l.takeWhile Char.isDigit, l.dropWhile Char.isDigit)


/-- The optional leading minus sign (`-?`): consumed when present. -/
def optMinus (l : List Char) : Bool × List Char :=
  match l with
  | '-' :: r => (true, r)
  | _ => (false, l)

/-- Match the optional exponent group `(?:e-?\d+)?` at the head of `l`:
returns the exponent (sign, digits) and the rest, or leaves `l` intact
when the group cannot complete (no digit after the marker). -/
def matchExponent (l : List Char) : Option (Bool × List Char) × List Char :=
  match l with
  | [] => (none, [])
  | c :: rest =>
    if c = 'e' ∨ c = 'E' then
      let m := optMinus rest
      let d := takeDigits m.2
      if d.1 = [] then (none, c :: rest) else (some (m.1, d.1), d.2)
    else (none, c :: rest)

/-- Try to match the whole numeric pattern at the head of `l`.  Returns
the token and the remaining input on success. -/
def matchNumAt (l : List Char) : Option (NumToken × List Char) :=
  let m := optMinus l
  let d1 := takeDigits m.2
  match d1.2 with
  | '.' :: r =>
    let d2 := takeDigits r
    if d2.1 = [] then
      -- no digit after the dot: the dot is given back, and the match
      -- succeeds on the integer digits alone (or fails without any)
      if d1.1 = [] then none
      else
        let e := matchExponent d1.2
        some (⟨m.1, d1.1, [], e.1⟩, e.2)
    else
      let e := matchExponent d2.2
      some (⟨m.1, d1.1, d2.1, e.1⟩, e.2)
  | _ =>
    if d1.1 = [] then none
    else
      let e := matchExponent d1.2
      some (⟨m.1, d1.1, [], e.1⟩, e.2)

lemma optMinus_snd_le (l : List Char) : (optMinus l).2.length ≤ l.length := by
  unfold optMinus
  split <;> simp

lemma takeDigits_snd_le (l : List Char) : (takeDigits l).2.length ≤ l.length :=
  (List.dropWhile_sublist Char.isDigit).length_le

lemma takeDigits_snd_lt (l : List Char) (h : (takeDigits l).1 ≠ []) :
    (takeDigits l).2.length < l.length := by
  cases l with
  | nil => simp [takeDigits] at h
  | cons x xs =>
    by_cases hx : Char.isDigit x
    · have hd : (takeDigits (x :: xs)).2 = xs.dropWhile Char.isDigit := by
        simp [takeDigits, List.dropWhile_cons, hx]
      rw [hd]
      exact Nat.lt_succ_of_le (List.dropWhile_sublist Char.isDigit).length_le
    · simp [takeDigits, List.takeWhile_cons, hx] at h

lemma matchExponent_snd_le (l : List Char) : (matchExponent l).2.length ≤ l.length := by
  cases l with
  | nil => simp [matchExponent]
  | cons c rest =>
    simp only [matchExponent]
    split
    · split
      · simp
      · calc (takeDigits (optMinus rest).2).2.length
            ≤ (optMinus rest).2.length := takeDigits_snd_le _
          _ ≤ rest.length := optMinus_snd_le rest
          _ ≤ (c :: rest).length := by simp
    · simp

lemma matchNumAt_consumes (l : List Char) (t : NumToken) (r : List Char)
    (h : matchNumAt l = some (t, r)) : r.length < l.length := by
  have hm : (optMinus l).2.length ≤ l.length := optMinus_snd_le l
  revert h
  simp only [matchNumAt]
  split
  · rename_i r0 heq
    split
    · split
      · intro h; cases h
      · intro h
        rename_i hint
        have h2 : (matchExponent (takeDigits (optMinus l).2).2).2 = r := by
          injection h with h1; injection h1
        subst h2
        have hle := matchExponent_snd_le (takeDigits (optMinus l).2).2
        have hlt := takeDigits_snd_lt (optMinus l).2 hint
        omega
    · intro h
      rename_i hfrac
      have h2 : (matchExponent (takeDigits r0).2).2 = r := by
        injection h with h1; injection h1
      subst h2
      have hle := matchExponent_snd_le (takeDigits r0).2
      have h3 := takeDigits_snd_lt r0 hfrac
      have h4 : ('.' :: r0).length ≤ l.length := by
        rw [← heq]
        calc (takeDigits (optMinus l).2).2.length
            ≤ (optMinus l).2.length := takeDigits_snd_le _
          _ ≤ l.length := hm
      simp only [List.length_cons] at h4
      omega
  · split
    · intro h; cases h
    · intro h
      rename_i hint
      have h2 : (matchExponent (takeDigits (optMinus l).2).2).2 = r := by
        injection h with h1; injection h1
      subst h2
      have hle := matchExponent_snd_le (takeDigits (optMinus l).2).2
      have hlt := takeDigits_snd_lt (optMinus l).2 hint
      omega

/-- The global scan: attempt a match at each position; on success resume
after the matched token, on failure advance one character. -/
def scanTokens (l : List Char) : List NumToken :=
  match l with
  | [] => []
  | c :: rest =>
    match h : matchNumAt (c :: rest) with
    | some (tok, rest2) => tok :: scanTokens rest2
    | none => scanTokens rest
termination_by l.length
decreasing_by
  · exact matchNumAt_consumes _ _ _ h
  · simp

/-- The numeric value of a digit run. -/
def digitsToNat (ds : List Char) : ℕ :=
  ds.foldl (fun n c => 10 * n + (c.toNat - 48)) 0

/-- JS `Number` applied to a matched token (`sign intDs . fracDs e expDs`):
the exact decimal value.  A token produced by the scanner always
converts to a finite number, never to `NaN` — which is why the
NaN-filter of the optimized variant never removes anything. -/
def tokenToRat (t : NumToken) : ℚ :=
  let mant : ℚ := (digitsToNat t.intDs : ℚ) +
    (digitsToNat t.fracDs : ℚ) / ((10 : ℚ) ^ t.fracDs.length)
  let signed : ℚ := if t.neg then -mant else mant
  match t.expPart with
  | none => signed
  | some e =>
    if e.1 then signed / (10 : ℚ) ^ digitsToNat e.2
    else signed * (10 : ℚ) ^ digitsToNat e.2

/-- `Metrics`: the three formatted display strings of a result. -/
structure Metrics where
  bitRate : String
  signalLevels : String
  bandwidth : String
deriving DecidableEq, Repr

/-- The uniform result record (the `TransmissionResult` interface of the
optimized variant; the other variant returns the same shape
structurally, with absent fields modeled as `none`). -/
structure TransmissionResult where
  original : Option String := none
  originalAnalog : Option (List JsVal) := none
  encoded : List JsVal
  decoded : Option String := none
  decodedAnalog : Option (List JsVal) := none
  demodulatedSignal : Option (List JsVal) := none
  metrics : Metrics
deriving DecidableEq, Repr

namespace Lib

/-- `parseAnalogValues` of `src/lib/transmission.ts`: strip quotation
characters, trim, scan for numeric tokens, convert each with `Number`. -/
def parseAnalogValues (raw : String) : List ℚ :=
  (scanTokens (trimChars (stripQuotes raw.data))).map tokenToRat

/-!
### Digital to digital (line codec), `src/lib/transmission.ts`
-/

/-- NRZ-I encode: the first bit is taken as the initial level; afterwards
a bit of 1 flips the level.  Inner loop (`idx > 0`). -/
def nrzIEncodeGo (level : JsVal) : List JsVal → List JsVal
  | [] => []
  | b :: rest =>
    let l2 := if jseq b (num 1) then jsub (num 1) level else level
    l2 :: nrzIEncodeGo l2 rest

/-- NRZ-I encode, whole sequence (`idx === 0` sets `level = b`). -/
def nrzIEncode : List JsVal → List JsVal
  | [] => []
  | b :: rest => b :: nrzIEncodeGo b rest

/-- Manchester encode: bit 1 becomes `[0, 1]`, anything else `[1, 0]`. -/
def manchesterEncode (bits : List JsVal) : List JsVal :=
  bits.flatMap (fun b => if jseq b (num 1) then [num 0, num 1] else [num 1, num 0])

/-- Differential Manchester encode: the carried level flips at the bit
boundary when the bit is 0, and always flips mid-bit; both the start and
the mid level are emitted.  The carried level starts at 0 and is only
ever updated by `1 - level`, so it stays a number. -/
def diffManEncode (level : ℚ) : List JsVal → List JsVal
  | [] => []
  | b :: rest =>
    let start := if jseq b (num 0) then 1 - level else level
    let mid := 1 - start
    num start :: num mid :: diffManEncode mid rest

/-- AMI encode: each 1 takes the current polarity (starting at +1) and
flips it; every other bit emits level 0. -/
def amiEncode (polarity : ℚ) : List JsVal → List JsVal
  | [] => []
  | b :: rest =>
    if jseq b (num 1) then num polarity :: amiEncode (-polarity) rest
    else num 0 :: amiEncode polarity rest

/-- The inner of the NRZ-I decode loop: a change between consecutive
symbols decodes as 1, no change as 0 (`encoded[i] !== encoded[i-1]`). -/
def changeFlags (prev : JsVal) : List JsVal → List JsVal
  | [] => []
  | x :: rest => (if jsneq x prev then num 1 else num 0) :: changeFlags x rest

/-- NRZ-I decode: `[encoded[0], ...flags].join("")`.  On an empty
encoding `encoded[0]` is `undefined`, which joins as the empty string. -/
def nrzIDecode (encoded : List JsVal) : String :=
  jsJoin (jsIdx encoded 0 :: (match encoded with
    | [] => []
    | e :: rest => changeFlags e rest))

/-- Manchester decode: the pair `(0, 1)` decodes as 1, anything else as
0.  A trailing unpaired symbol reads `encoded[i+1]` as `undefined`, so
the conjunction is false and it decodes as 0. -/
def manchesterDecode : List JsVal → List Char
  | [] => []
  | a :: b :: rest =>
    (if jseq a (num 0) && jseq b (num 1) then '1' else '0') :: manchesterDecode rest
  | [a] =>
    [if jseq a (num 0) && jseq JsVal.undef (num 1) then '1' else '0']

/-- Differential Manchester decode: a transition at the boundary
(relative to the previous mid level, initially 0) decodes as 0, no
transition as 1. -/
def diffManDecode (prevLevel : JsVal) : List JsVal → List Char
  | [] => []
  | a :: b :: rest => (if jsneq a prevLevel then '0' else '1') :: diffManDecode b rest
  | [a] => [if jsneq a prevLevel then '0' else '1']

/-- AMI decode: nonzero symbol decodes as 1, zero as 0. -/
def amiDecode (encoded : List JsVal) : String :=
  jsJoin (encoded.map (fun e => if jseq e (num 0) then num 0 else num 1))

/-- `processDigitalToDigital` of `src/lib/transmission.ts`: the switch
over the five line codes with identity fallback, its inverse switch, and
the metrics record. -/
def processDigitalToDigital (algorithm : String) (data : String) : TransmissionResult :=
  let bits := parseBits data
  let encoded : List JsVal :=
    if algorithm = "nrz-l" then bits.map (fun b => b)
    else if algorithm = "nrz-i" then nrzIEncode bits
    else if algorithm = "manchester" then manchesterEncode bits
    else if algorithm = "diff-manchester" then diffManEncode 0 bits
    else if algorithm = "ami" then amiEncode 1 bits
    else bits
  let decoded : String :=
    if algorithm = "nrz-l" then jsJoin (encoded.map jround)
    else if algorithm = "nrz-i" then nrzIDecode encoded
    else if algorithm = "manchester" then String.mk (manchesterDecode encoded)
    else if algorithm = "diff-manchester" then String.mk (diffManDecode (num 0) encoded)
    else if algorithm = "ami" then amiDecode encoded
    else data
  { original := some data
    encoded := encoded
    decoded := some decoded
    metrics :=
      { bitRate := toString (data.length * 1000) ++ " bps"
        signalLevels := if algorithm = "ami" then "3" else "2"
        bandwidth := toString (data.length * 500) ++ " Hz" } }

end Lib

namespace Lib

/-!
### Digital to analog (modulator), `src/lib/transmission.ts`

`Math.sin` is modeled by an abstract parameter `s : ℚ → ℚ → ℚ`, where
`s a b` stands for `Math.sin(2π·a + b)`: every sine argument in the
source is a rational multiple of 2π plus a rational phase, and π itself
equals 2π·(1/2).  No theorem below depends on the values of `s`.
-/

/-- ASK modulation: ten flat samples per bit, amplitude 1 for bit 1 and
0.3 otherwise. -/
def askModulate (bits : List JsVal) : List JsVal :=
  bits.flatMap (fun b => List.replicate 10 (if jseq b (num 1) then num 1 else num (3/10)))

/-- FSK modulation: ten sine samples per bit at frequency 4 for bit 1
and 2 otherwise (`sin(2π·freq·i/10)`). -/
def fskModulate (s : ℚ → ℚ → ℚ) (bits : List JsVal) : List JsVal :=
  bits.flatMap (fun b =>
    let freq : ℚ := if jseq b (num 1) then 4 else 2
    (List.range 10).map (fun i => num (s (freq * i / 10) 0)))

/-- PSK modulation: carrier `sin(2π·2·i/10)` with an extra phase π for
bit 1 (π = 2π·(1/2), folded into the first argument of `s`). -/
def pskModulate (s : ℚ → ℚ → ℚ) (bits : List JsVal) : List JsVal :=
  bits.flatMap (fun b =>
    (List.range 10).map (fun i =>
      num (s (2 * i / 10 + (if jseq b (num 1) then 1/2 else 0)) 0)))

/-- QAM modulation (simplified): the carrier scaled by 1.5 for bit 1 and
0.5 otherwise. -/
def qamModulate (s : ℚ → ℚ → ℚ) (bits : List JsVal) : List JsVal :=
  bits.flatMap (fun b =>
    (List.range 10).map (fun i =>
      if jseq b (num 1) then num (s (2 * i / 10) 0 * (3/2))
      else num (s (2 * i / 10) 0 * (1/2))))

/-- The mean absolute amplitude of a segment:
`segment.reduce((a, b) => a + Math.abs(b), 0) / segment.length`. -/
def segmentAvg (segment : List JsVal) : JsVal :=
  jdiv (segment.foldl (fun a b => jadd a (jabs b)) (num 0)) (num segment.length)

/-- The FSK demodulation statistic: how many adjacent sample pairs jump
by more than 0.5 (`idx > 0 && |segment[idx] - segment[idx-1]| > 0.5`). -/
def bigJumpsGo (prev : JsVal) : List JsVal → ℕ
  | [] => 0
  | x :: rest => (if jgt (jabs (jsub x prev)) (num (1/2)) then 1 else 0) + bigJumpsGo x rest

/-- The jump count over a whole segment. -/
def bigJumps : List JsVal → ℕ
  | [] => 0
  | x :: rest => bigJumpsGo x rest

/-- One demodulated character for a segment, per algorithm: ASK and QAM
threshold the mean absolute amplitude (0.6 and 0.8), FSK thresholds the
jump count (> 3), PSK tests the sign of the first sample, and the
fallback thresholds the mean at 0.5. -/
def demodBit (algorithm : String) (segment : List JsVal) : Char :=
  let avg := segmentAvg segment
  if algorithm = "ask" then (if jgt avg (num (3/5)) then '1' else '0')
  else if algorithm = "fsk" then (if bigJumps segment > 3 then '1' else '0')
  else if algorithm = "psk" then (if jlt (jsIdx segment 0) (num 0) then '1' else '0')
  else if algorithm = "qam" then (if jgt avg (num (4/5)) then '1' else '0')
  else (if jgt avg (num (1/2)) then '1' else '0')

/-- The demodulation loop: non-overlapping windows of 10 samples, one
character per window. -/
def demodChunks (algorithm : String) (modulated : List JsVal) : List Char :=
  match modulated with
  | [] => []
  | x :: xs =>
    demodBit algorithm (List.take 10 (x :: xs)) ::
      demodChunks algorithm (List.drop 10 (x :: xs))
termination_by modulated.length
decreasing_by simp; omega

/-- `processDigitalToAnalog` of `src/lib/transmission.ts`. -/
def processDigitalToAnalog (s : ℚ → ℚ → ℚ) (algorithm : String) (data : String) :
    TransmissionResult :=
  let bits := parseBits data
  let modulated : List JsVal :=
    if algorithm = "ask" then askModulate bits
    else if algorithm = "fsk" then fskModulate s bits
    else if algorithm = "psk" then pskModulate s bits
    else if algorithm = "qam" then qamModulate s bits
    else bits.flatMap (fun b => List.replicate 10 b)
  { original := some data
    encoded := modulated
    decoded := some (String.mk (demodChunks algorithm modulated))
    metrics :=
      { bitRate := toString (data.length * 1000) ++ " bps"
        signalLevels := if algorithm = "qam" then "16"
          else if algorithm = "psk" then "4" else "2"
        bandwidth := toString (data.length * 2000) ++ " Hz" } }

end Lib

namespace Lib

/-!
### Analog to digital (quantizer), `src/lib/transmission.ts`
-/

/-- `analogValues[0]` as a JS value: `undefined` on an empty parse. -/
def headVal : List ℚ → JsVal
  | [] => JsVal.undef
  | a :: _ => num a

/-- The delta sign bits: 1 when the difference to the previous sample is
strictly positive, 0 otherwise (inner loop, `i ≥ 1`). -/
def deltaSignsGo (prev : ℚ) : List ℚ → List JsVal
  | [] => []
  | x :: rest => (if prev < x then num 1 else num 0) :: deltaSignsGo x rest

/-- The delta sign bits over the whole sequence. -/
def deltaSigns : List ℚ → List JsVal
  | [] => []
  | a :: rest => deltaSignsGo a rest

/-- The delta reconstruction loop: each sign bit adds or subtracts the
fixed step 0.1 from the previous reconstructed value. -/
def deltaDecodeGo (prev : JsVal) : List JsVal → List JsVal
  | [] => []
  | e :: rest =>
    let d := jadd prev (if jseq e (num 1) then num (1/10) else num (-(1/10)))
    d :: deltaDecodeGo d rest

/-- Delta decode: `decoded = [encoded[0]]`, then integrate the fixed
step.  On an empty encoding `encoded[0]` is `undefined`. -/
def deltaDecode (encoded : List JsVal) : List JsVal :=
  jsIdx encoded 0 :: (match encoded with
    | [] => []
    | _ :: rest => deltaDecodeGo (jsIdx encoded 0) rest)

/-- `processAnalogToDigital` of `src/lib/transmission.ts`: PCM is the
8-level `round(v * 7) / 7`, delta and adaptive-delta store the raw first
sample followed by sign bits and reconstruct with a fixed 0.1 step, and
any other algorithm passes the samples through. -/
def processAnalogToDigital (algorithm : String) (data : String) : TransmissionResult :=
  let analogValues := parseAnalogValues data
  let encoded : List JsVal :=
    if algorithm = "pcm" then
      analogValues.map (fun v => num (((⌊v * 7 + 1/2⌋ : ℤ) : ℚ) / 7))
    else if algorithm = "delta" ∨ algorithm = "adaptive-delta" then
      headVal analogValues :: deltaSigns analogValues
    else analogValues.map num
  let decoded : List JsVal :=
    if algorithm = "delta" ∨ algorithm = "adaptive-delta" then deltaDecode encoded
    else encoded
  { originalAnalog := some (analogValues.map num)
    encoded := encoded
    decodedAnalog := some decoded
    metrics :=
      { bitRate := toString (analogValues.length * 8000) ++ " bps"
        signalLevels := "256"
        bandwidth := toString (analogValues.length * 4000) ++ " Hz" } }

/-!
### Analog to analog (modulator), `src/lib/transmission.ts`

`Math.atan2` is modeled by an abstract parameter `t : ℚ → ℚ → ℚ`.
-/

/-- AM modulation: twenty samples per input value,
`v * (1 + 0.5 * sin(2π·i/20))`. -/
def amModulate (s : ℚ → ℚ → ℚ) (analogValues : List ℚ) : List JsVal :=
  analogValues.flatMap (fun v =>
    (List.range 20).map (fun i => num (v * (1 + 1/2 * s (i / 20) 0))))

/-- AM envelope recovery over one segment: mean absolute value divided
by 1.5 (the sum is divided by the constant 20, not the segment length). -/
def amDemodChunks (modulated : List JsVal) : List JsVal :=
  match modulated with
  | [] => []
  | x :: xs =>
    jdiv (jdiv ((List.take 20 (x :: xs)).foldl (fun a b => jadd a (jabs b)) (num 0))
        (num 20)) (num (3/2)) ::
      amDemodChunks (List.drop 20 (x :: xs))
termination_by modulated.length
decreasing_by simp; omega

/-- FM modulation: instantaneous frequency `2 + |v|`,
`sin(2π·freq·i/20)`. -/
def fmModulate (s : ℚ → ℚ → ℚ) (analogValues : List ℚ) : List JsVal :=
  analogValues.flatMap (fun v =>
    let freq : ℚ := 2 + |v|
    (List.range 20).map (fun i => num (s (freq * i / 20) 0)))

/-- Zero-crossing count of a segment: sign changes between consecutive
samples, where negatives are `< 0` and the rest `≥ 0`. -/
def zeroCrossGo (prev : JsVal) : List JsVal → ℕ
  | [] => 0
  | x :: rest =>
    (if (jge prev (num 0) && jlt x (num 0)) || (jlt prev (num 0) && jge x (num 0))
     then 1 else 0) + zeroCrossGo x rest

/-- Zero crossings over a whole segment. -/
def zeroCross : List JsVal → ℕ
  | [] => 0
  | x :: rest => zeroCrossGo x rest

/-- FM demodulation: zero crossings per 20-sample segment, divided by 2,
minus the frequency offset 2. -/
def fmDemodChunks (modulated : List JsVal) : List JsVal :=
  match modulated with
  | [] => []
  | x :: xs =>
    num ((zeroCross (List.take 20 (x :: xs)) : ℚ) / 2 - 2) ::
      fmDemodChunks (List.drop 20 (x :: xs))
termination_by modulated.length
decreasing_by simp; omega

/-- PM modulation: `sin(2π·2·i/20 + v)`, the sample used directly as a
phase offset. -/
def pmModulate (s : ℚ → ℚ → ℚ) (analogValues : List ℚ) : List JsVal :=
  analogValues.flatMap (fun v =>
    (List.range 20).map (fun i => num (s (2 * i / 20) v)))

/-- `Math.atan2` lifted to JS values (both arguments are numbers at
every use, thanks to the `|| 0` and `|| 1` defaults). -/
def jatan2App (t : ℚ → ℚ → ℚ) : JsVal → JsVal → JsVal
  | num y, num x => num (t y x)
  | _, _ => JsVal.nan

/-- PM demodulation: `atan2(segment[5] || 0, segment[0] || 1)` per
20-sample segment. -/
def pmDemodChunks (t : ℚ → ℚ → ℚ) (modulated : List JsVal) : List JsVal :=
  match modulated with
  | [] => []
  | x :: xs =>
    jatan2App t (jor (jsIdx (List.take 20 (x :: xs)) 5) (num 0))
        (jor (jsIdx (List.take 20 (x :: xs)) 0) (num 1)) ::
      pmDemodChunks t (List.drop 20 (x :: xs))
termination_by modulated.length
decreasing_by simp; omega

/-- `processAnalogToAnalog` of `src/lib/transmission.ts`: AM, FM and PM
with their approximate demodulations; the `decodedAnalog` field of the
result is the parsed input itself, the demodulated trace is returned
separately. -/
def processAnalogToAnalog (s t : ℚ → ℚ → ℚ) (algorithm : String) (data : String) :
    TransmissionResult :=
  let analogValues := parseAnalogValues data
  let modulated : List JsVal :=
    if algorithm = "am" then amModulate s analogValues
    else if algorithm = "fm" then fmModulate s analogValues
    else if algorithm = "pm" then pmModulate s analogValues
    else analogValues.map num
  let demodulated : List JsVal :=
    if algorithm = "am" then amDemodChunks modulated
    else if algorithm = "fm" then fmDemodChunks modulated
    else if algorithm = "pm" then pmDemodChunks t modulated
    else analogValues.map num
  { originalAnalog := some (analogValues.map num)
    encoded := modulated
    decodedAnalog := some (analogValues.map num)
    demodulatedSignal := some demodulated
    metrics :=
      { bitRate := "N/A (Analog)"
        signalLevels := "Continuous"
        bandwidth := toString (analogValues.length * 1000) ++ " Hz" } }

/-- The four recognized transmission modes. -/
def recognizedModes : List String :=
  ["digital-to-digital", "digital-to-analog", "analog-to-digital", "analog-to-analog"]

/-- `processTransmission` of `src/lib/transmission.ts`: dispatch on the
mode string, null (`none`) for anything unrecognized.  The TypeScript
`mode` annotation is erased at runtime, so the dispatcher is modeled
over arbitrary strings. -/
def processTransmission (s t : ℚ → ℚ → ℚ) (mode algorithm inputData : String) :
    Option TransmissionResult :=
  if mode = "digital-to-digital" then some (processDigitalToDigital algorithm inputData)
  else if mode = "digital-to-analog" then some (processDigitalToAnalog s algorithm inputData)
  else if mode = "analog-to-digital" then some (processAnalogToDigital algorithm inputData)
  else if mode = "analog-to-analog" then some (processAnalogToAnalog s t algorithm inputData)
  else none

end Lib

namespace Gemini

/-!
### The optimized variant

Same pattern and quote set as the other parser, but without the trim;
the source also filters out `NaN` values, and `Number` applied to a
matched token never yields `NaN`, so that filter removes nothing and the
exact-rational embedding has no counterpart for it.
-/

/-- `parseAnalog` of the optimized variant. -/
def parseAnalog (data : String) : List ℚ :=
  (scanTokens (stripQuotes data.data)).map tokenToRat

/-- NRZ-I encode of this variant: the level starts at 0 and flips on
every 1, with no special case for the first bit. -/
def nrzIEncodeGo (level : ℚ) : List JsVal → List JsVal
  | [] => []
  | b :: rest =>
    let l2 := if jseq b (num 1) then 1 - level else level
    num l2 :: nrzIEncodeGo l2 rest

/-- `processDigitalToDigital` of the optimized variant: identical to the
other copy except for the NRZ-I encoder. -/
def processDigitalToDigital (algorithm : String) (data : String) : TransmissionResult :=
  let bits := parseBits data
  let encoded : List JsVal :=
    if algorithm = "nrz-l" then bits
    else if algorithm = "nrz-i" then nrzIEncodeGo 0 bits
    else if algorithm = "manchester" then Lib.manchesterEncode bits
    else if algorithm = "diff-manchester" then Lib.diffManEncode 0 bits
    else if algorithm = "ami" then Lib.amiEncode 1 bits
    else bits
  let decoded : String :=
    if algorithm = "nrz-l" then jsJoin (encoded.map jround)
    else if algorithm = "nrz-i" then Lib.nrzIDecode encoded
    else if algorithm = "manchester" then String.mk (Lib.manchesterDecode encoded)
    else if algorithm = "diff-manchester" then String.mk (Lib.diffManDecode (num 0) encoded)
    else if algorithm = "ami" then Lib.amiDecode encoded
    else data
  { original := some data
    encoded := encoded
    decoded := some decoded
    metrics :=
      { bitRate := toString (data.length * 1000) ++ " bps"
        signalLevels := if algorithm = "ami" then "3" else "2"
        bandwidth := toString (data.length * 500) ++ " Hz" } }

/-- The PSK correlation statistic of this variant:
`Σ segment[j] * sin(2π·2·j/10)`. -/
def pskCorrelationGo (s : ℚ → ℚ → ℚ) (j : ℕ) (acc : JsVal) : List JsVal → JsVal
  | [] => acc
  | x :: rest => pskCorrelationGo s (j + 1) (jadd acc (jmul x (num (s (2 * j / 10) 0)))) rest

/-- The correlation over a whole segment, accumulator starting at 0. -/
def pskCorrelation (s : ℚ → ℚ → ℚ) (segment : List JsVal) : JsVal :=
  pskCorrelationGo s 0 (num 0) segment

/-- One demodulated character per segment for this variant: ASK and QAM
as in the other copy, FSK thresholds the zero-crossing count (≥ 6), PSK
uses the sign of the carrier correlation. -/
def demodBit (s : ℚ → ℚ → ℚ) (algorithm : String) (segment : List JsVal) : Char :=
  let avg := Lib.segmentAvg segment
  if algorithm = "ask" then (if jgt avg (num (3/5)) then '1' else '0')
  else if algorithm = "fsk" then (if Lib.zeroCross segment ≥ 6 then '1' else '0')
  else if algorithm = "psk" then (if jlt (pskCorrelation s segment) (num 0) then '1' else '0')
  else if algorithm = "qam" then (if jgt avg (num (4/5)) then '1' else '0')
  else (if jgt avg (num (1/2)) then '1' else '0')

/-- The demodulation loop of this variant. -/
def demodChunks (s : ℚ → ℚ → ℚ) (algorithm : String) (modulated : List JsVal) : List Char :=
  match modulated with
  | [] => []
  | x :: xs =>
    demodBit s algorithm (List.take 10 (x :: xs)) ::
      demodChunks s algorithm (List.drop 10 (x :: xs))
termination_by modulated.length
decreasing_by simp; omega

/-- `processDigitalToAnalog` of the optimized variant. -/
def processDigitalToAnalog (s : ℚ → ℚ → ℚ) (algorithm : String) (data : String) :
    TransmissionResult :=
  let bits := parseBits data
  let modulated : List JsVal :=
    if algorithm = "ask" then Lib.askModulate bits
    else if algorithm = "fsk" then Lib.fskModulate s bits
    else if algorithm = "psk" then Lib.pskModulate s bits
    else if algorithm = "qam" then
      bits.flatMap (fun b =>
        (List.range 10).map (fun i =>
          num (s (2 * i / 10) 0 * (if jseq b (num 1) then 3/2 else 1/2))))
    else bits.flatMap (fun b => List.replicate 10 b)
  { original := some data
    encoded := modulated
    decoded := some (String.mk (demodChunks s algorithm modulated))
    metrics :=
      { bitRate := toString (data.length * 1000) ++ " bps"
        signalLevels := if algorithm = "qam" then "16"
          else if algorithm = "psk" then "4" else "2"
        bandwidth := toString (data.length * 2000) ++ " Hz" } }

/-!
### Analog to digital (quantizer), optimized variant
-/

/-- `Math.min(...analogValues)` over a nonempty list (the empty case is
cut off by the guard; JS would give `Infinity` there). -/
def jsMin : List ℚ → ℚ
  | [] => 0
  | x :: xs => xs.foldl min x

/-- `Math.max(...analogValues)` over a nonempty list. -/
def jsMax : List ℚ → ℚ
  | [] => 0
  | x :: xs => xs.foldl max x

/-- `range = maxVal - minVal || 1`: the span of the samples, replaced by
1 when it is zero. -/
def a2dRange (av : List ℚ) : ℚ :=
  if jsMax av - jsMin av = 0 then 1 else jsMax av - jsMin av

/-- `normalized`: every sample scaled into `[0, 1]` by the observed
minimum and range. -/
def normalizedOf (av : List ℚ) : List ℚ :=
  av.map (fun v => (v - jsMin av) / a2dRange av)

/-- PCM encode: every normalized sample quantized to one of 256 integer
levels, `Math.round(v * 255)`. -/
def pcmEncode (av : List ℚ) : List ℚ :=
  (normalizedOf av).map (fun v => ((⌊v * 255 + 1/2⌋ : ℤ) : ℚ))

/-- PCM decode: every level scaled back through the same range and
minimum, `(v / 255) * range + minVal`. -/
def pcmDecode (av : List ℚ) : List ℚ :=
  (pcmEncode av).map (fun v => v / 255 * a2dRange av + jsMin av)

/-- Delta encode (inner loop): the sign of each successive difference,
1 for a non-negative step. -/
def deltaEncodeGo (prev : ℚ) : List ℚ → List ℚ
  | [] => []
  | x :: rest => (if 0 ≤ x - prev then 1 else 0) :: deltaEncodeGo x rest

/-- Delta encode over the whole sequence: one sign bit per difference,
none for the reference sample. -/
def deltaEncode : List ℚ → List ℚ
  | [] => []
  | a :: rest => deltaEncodeGo a rest

/-- Delta decode (inner loop): integrate the actual magnitude of each
original difference, added or subtracted according to its sign. -/
def deltaDecodeGo (prevOrig prevDec : ℚ) : List ℚ → List ℚ
  | [] => []
  | x :: rest =>
    let diff := x - prevOrig
    let step := |diff|
    let d := prevDec + (if 0 ≤ diff then step else -step)
    d :: deltaDecodeGo x d rest

/-- Delta decode over the whole sequence, starting from the first true
sample. -/
def deltaDecode : List ℚ → List ℚ
  | [] => []
  | a :: rest => a :: deltaDecodeGo a a rest

/-- The zero-length result returned for an empty sample sequence. -/
def emptyA2DResult : TransmissionResult :=
  { originalAnalog := some []
    encoded := []
    decodedAnalog := some []
    metrics := { bitRate := "0 bps", signalLevels := "256", bandwidth := "0 Hz" } }

/-- The body of `processAnalogToDigital` of the optimized variant, after
the parse: guard for the empty sequence, then PCM quantization through
the observed min/max, sign-bit delta with exact-magnitude
reconstruction, or pass-through. -/
def a2dCore (algorithm : String) (analogValues : List ℚ) : TransmissionResult :=
  if analogValues.length = 0 then emptyA2DResult
  else
    let encoded : List ℚ :=
      if algorithm = "pcm" then pcmEncode analogValues
      else if algorithm = "delta" ∨ algorithm = "adaptive-delta" then deltaEncode analogValues
      else analogValues
    let decoded : List ℚ :=
      if algorithm = "pcm" then pcmDecode analogValues
      else if algorithm = "delta" ∨ algorithm = "adaptive-delta" then deltaDecode analogValues
      else analogValues
    { originalAnalog := some (analogValues.map num)
      encoded := encoded.map num
      decodedAnalog := some (decoded.map num)
      metrics :=
        { bitRate := toString (analogValues.length * 8000) ++ " bps"
          signalLevels := if algorithm = "pcm" then "256" else "2"
          bandwidth := toString (analogValues.length * 4000) ++ " Hz" } }

/-- `processAnalogToDigital` of the optimized variant. -/
def processAnalogToDigital (algorithm : String) (data : String) : TransmissionResult :=
  a2dCore algorithm (parseAnalog data)

/-- The zero-length result returned for an empty analog-to-analog
input. -/
def emptyA2AResult : TransmissionResult :=
  { originalAnalog := some []
    encoded := []
    decodedAnalog := some []
    demodulatedSignal := some []
    metrics := { bitRate := "N/A (Analog)", signalLevels := "Continuous", bandwidth := "0 Hz" } }

/-- `processAnalogToAnalog` of the optimized variant: the same three
modulators and demodulators as the other copy, behind an empty-input
guard; `decodedAnalog` is again the parsed input itself. -/
def processAnalogToAnalog (s t : ℚ → ℚ → ℚ) (algorithm : String) (data : String) :
    TransmissionResult :=
  let analogValues := parseAnalog data
  if analogValues.length = 0 then emptyA2AResult
  else
    let modulated : List JsVal :=
      if algorithm = "am" then Lib.amModulate s analogValues
      else if algorithm = "fm" then Lib.fmModulate s analogValues
      else if algorithm = "pm" then Lib.pmModulate s analogValues
      else analogValues.map num
    let demodulated : List JsVal :=
      if algorithm = "am" then Lib.amDemodChunks modulated
      else if algorithm = "fm" then Lib.fmDemodChunks modulated
      else if algorithm = "pm" then Lib.pmDemodChunks t modulated
      else analogValues.map num
    { originalAnalog := some (analogValues.map num)
      encoded := modulated
      decodedAnalog := some (analogValues.map num)
      demodulatedSignal := some demodulated
      metrics :=
        { bitRate := "N/A (Analog)"
          signalLevels := "Continuous"
          bandwidth := toString (analogValues.length * 1000) ++ " Hz" } }

/-- `processTransmission` of the optimized variant: the processor table
lookup with `?? null`, equivalent to a dispatch on the mode string. -/
def processTransmission (s t : ℚ → ℚ → ℚ) (mode algorithm inputData : String) :
    Option TransmissionResult :=
  if mode = "digital-to-digital" then some (processDigitalToDigital algorithm inputData)
  else if mode = "digital-to-analog" then some (processDigitalToAnalog s algorithm inputData)
  else if mode = "analog-to-digital" then some (processAnalogToDigital algorithm inputData)
  else if mode = "analog-to-analog" then some (processAnalogToAnalog s t algorithm inputData)
  else none

end Gemini

/-!
## Theorems
-/

/-- Every algorithm tag that some mode family recognizes; anything
outside this list hits a default branch in every processor. -/
def knownAlgorithms : List String :=
  ["nrz-l", "nrz-i", "manchester", "diff-manchester", "ami",
   "ask", "fsk", "psk", "qam",
   "pcm", "delta", "adaptive-delta",
   "am", "fm", "pm"]

lemma Lib.processTransmission_eq_none_iff (s t : ℚ → ℚ → ℚ)
    (mode algorithm inputData : String) :
    Lib.processTransmission s t mode algorithm inputData = none ↔
      mode ∉ Lib.recognizedModes := by
  unfold Lib.processTransmission Lib.recognizedModes
  split_ifs with h1 h2 h3 h4
  · subst h1; exact iff_of_false (by simp) (by decide)
  · subst h2; exact iff_of_false (by simp) (by decide)
  · subst h3; exact iff_of_false (by simp) (by decide)
  · subst h4; exact iff_of_false (by simp) (by decide)
  · exact iff_of_true rfl (by simp [h1, h2, h3, h4])

/-- C1.  For every mode string, every algorithm string and every input
text, the dispatcher runs to completion and returns a value: an actual
result record exactly when the mode is recognized, and null otherwise.
The embedding of the engine is a total function — no operation the
source performs can throw — so termination and absence of exceptions
hold for all inputs by construction, and this theorem records the shape
of the value always returned. -/
theorem processTransmission_never_throws (s t : ℚ → ℚ → ℚ)
    (mode algorithm inputData : String) :
    ∃ r : Option TransmissionResult,
      Lib.processTransmission s t mode algorithm inputData = r ∧
      ((r.isSome = true) ↔ mode ∈ Lib.recognizedModes) := by
  refine ⟨_, rfl, ?_⟩
  simp [Option.isSome_iff_ne_none, ne_eq,
    Lib.processTransmission_eq_none_iff, not_not]

/-- C2.  The dispatcher returns null exactly when the mode is
unrecognized, and within a recognized mode an unknown algorithm tag
never produces null: every processor falls back to its pass-through
behavior (bits or samples unchanged for the codecs, the ten-sample
hold for the digital modulator). -/
theorem processTransmission_null_only_bad_mode (s t : ℚ → ℚ → ℚ)
    (mode algorithm inputData : String) :
    (Lib.processTransmission s t mode algorithm inputData = none ↔
      mode ∉ Lib.recognizedModes) ∧
    (algorithm ∉ knownAlgorithms →
      (Lib.processDigitalToDigital algorithm inputData).encoded = parseBits inputData ∧
      (Lib.processDigitalToDigital algorithm inputData).decoded = some inputData ∧
      (Lib.processDigitalToAnalog s algorithm inputData).encoded =
        (parseBits inputData).flatMap (fun b => List.replicate 10 b) ∧
      (Lib.processAnalogToDigital algorithm inputData).encoded =
        (Lib.parseAnalogValues inputData).map JsVal.num ∧
      (Lib.processAnalogToDigital algorithm inputData).decodedAnalog =
        some ((Lib.parseAnalogValues inputData).map JsVal.num) ∧
      (Lib.processAnalogToAnalog s t algorithm inputData).encoded =
        (Lib.parseAnalogValues inputData).map JsVal.num) := by
  constructor
  · exact Lib.processTransmission_eq_none_iff s t mode algorithm inputData
  · intro h
    simp only [knownAlgorithms, List.mem_cons, List.not_mem_nil, or_false] at h
    push_neg at h
    obtain ⟨h1, h2, h3, h4, h5, h6, h7, h8, h9, h10, h11, h12, h13, h14, h15⟩ := h
    refine ⟨?_, ?_, ?_, ?_, ?_, ?_⟩ <;>
      simp [Lib.processDigitalToDigital, Lib.processDigitalToAnalog,
        Lib.processAnalogToDigital, Lib.processAnalogToAnalog,
        h1, h2, h3, h4, h5, h6, h7, h8, h9, h10, h11, h12, h13, h14, h15]

/-- The abstract sine and arctangent used to instantiate witnesses. -/
def zeroTrig : ℚ → ℚ → ℚ := fun _ _ => 0

/-- Witness for C2 at the concrete bad tags of the spec example. -/
theorem processTransmission_null_only_bad_mode_witness :
    ("bogus" ∉ knownAlgorithms) ∧
    ((Lib.processTransmission zeroTrig zeroTrig "bogus" "bogus" "1010" = none ↔
        "bogus" ∉ Lib.recognizedModes) ∧
      ("bogus" ∉ knownAlgorithms →
        (Lib.processDigitalToDigital "bogus" "1010").encoded = parseBits "1010" ∧
        (Lib.processDigitalToDigital "bogus" "1010").decoded = some "1010" ∧
        (Lib.processDigitalToAnalog zeroTrig "bogus" "1010").encoded =
          (parseBits "1010").flatMap (fun b => List.replicate 10 b) ∧
        (Lib.processAnalogToDigital "bogus" "1010").encoded =
          (Lib.parseAnalogValues "1010").map JsVal.num ∧
        (Lib.processAnalogToDigital "bogus" "1010").decodedAnalog =
          some ((Lib.parseAnalogValues "1010").map JsVal.num) ∧
        (Lib.processAnalogToAnalog zeroTrig zeroTrig "bogus" "1010").encoded =
          (Lib.parseAnalogValues "1010").map JsVal.num)) :=
  ⟨by decide, processTransmission_null_only_bad_mode zeroTrig zeroTrig "bogus" "bogus" "1010"⟩

/-- C3.  On the sample sequence `[1.0, 1.5, 1.2]` the delta (and
adaptive-delta) codec emits the sign bits `[1, 0]`, and the
reconstruction — which integrates the actual magnitude of each original
difference rather than a fixed step — returns exactly `[1.0, 1.5, 1.2]`. -/
theorem delta_exact_reconstruction :
    (Gemini.a2dCore "delta" [1, 3/2, 6/5]).encoded = [JsVal.num 1, JsVal.num 0] ∧
    (Gemini.a2dCore "delta" [1, 3/2, 6/5]).decodedAnalog =
      some [JsVal.num 1, JsVal.num (3/2), JsVal.num (6/5)] ∧
    (Gemini.a2dCore "adaptive-delta" [1, 3/2, 6/5]).encoded =
      [JsVal.num 1, JsVal.num 0] ∧
    (Gemini.a2dCore "adaptive-delta" [1, 3/2, 6/5]).decodedAnalog =
      some [JsVal.num 1, JsVal.num (3/2), JsVal.num (6/5)] := by
  have h1 : ("delta" : String) ≠ "pcm" := by decide
  have h2 : ("adaptive-delta" : String) ≠ "pcm" := by decide
  have ha : |((1:ℚ)/2)| = 1/2 := abs_of_nonneg (by norm_num)
  have hb : |((3:ℚ)/10)| = 3/10 := abs_of_nonneg (by norm_num)
  refine ⟨?_, ?_, ?_, ?_⟩ <;>
    norm_num [Gemini.a2dCore, Gemini.deltaEncode, Gemini.deltaEncodeGo,
      Gemini.deltaDecode, Gemini.deltaDecodeGo, h1, h2, ha, hb]

/-- C6, counterexample.  The claim states that AMI encodes `"101"` as
`[+1, 0, +1]`; the code instead keeps the polarity flipped by the first
mark, producing `[+1, 0, -1]`. -/
theorem ami_claim_counterexample :
    (Lib.processDigitalToDigital "ami" "101").encoded ≠
      [JsVal.num 1, JsVal.num 0, JsVal.num 1] := by
  have h1 : ("ami" : String) ≠ "nrz-l" := by decide
  have h2 : ("ami" : String) ≠ "nrz-i" := by decide
  have h3 : ("ami" : String) ≠ "manchester" := by decide
  have h4 : ("ami" : String) ≠ "diff-manchester" := by decide
  have hc1 : charToJsVal '1' = JsVal.num 1 := by decide
  have hc0 : charToJsVal '0' = JsVal.num 0 := by decide
  have he1 : JsVal.jseq (JsVal.num 1) (JsVal.num 1) = true := by decide
  have he0 : JsVal.jseq (JsVal.num 0) (JsVal.num 1) = false := by decide
  norm_num [Lib.processDigitalToDigital, parseBits, Lib.amiEncode,
    h1, h2, h3, h4, hc1, hc0, he1, he0]

/-- C6, amended.  AMI encodes `"111"` as `[+1, -1, +1]` and `"101"` as
`[+1, 0, -1]`: marks alternate polarity starting at +1, zeros encode as
level 0, and an intervening zero leaves the polarity as the previous
mark left it (it does not reset it). -/
theorem ami_alternation :
    (Lib.processDigitalToDigital "ami" "111").encoded =
      [JsVal.num 1, JsVal.num (-1), JsVal.num 1] ∧
    (Lib.processDigitalToDigital "ami" "101").encoded =
      [JsVal.num 1, JsVal.num 0, JsVal.num (-1)] := by
  have h1 : ("ami" : String) ≠ "nrz-l" := by decide
  have h2 : ("ami" : String) ≠ "nrz-i" := by decide
  have h3 : ("ami" : String) ≠ "manchester" := by decide
  have h4 : ("ami" : String) ≠ "diff-manchester" := by decide
  have hc1 : charToJsVal '1' = JsVal.num 1 := by decide
  have hc0 : charToJsVal '0' = JsVal.num 0 := by decide
  have he1 : JsVal.jseq (JsVal.num 1) (JsVal.num 1) = true := by decide
  have he0 : JsVal.jseq (JsVal.num 0) (JsVal.num 1) = false := by decide
  constructor <;>
    norm_num [Lib.processDigitalToDigital, parseBits, Lib.amiEncode,
      h1, h2, h3, h4, hc1, hc0, he1, he0]

/-- C7.  On any input with no numeric token — the empty string in
particular — the analog-to-digital processor returns the well-formed
zero-length result: empty original, encoded and decoded sequences,
bit rate "0 bps" and signal levels "256", and no exception. -/
theorem empty_analog_input_result (s t : ℚ → ℚ → ℚ) (data : String)
    (h : Gemini.parseAnalog data = []) :
    Gemini.processTransmission s t "analog-to-digital" "pcm" data =
      some Gemini.emptyA2DResult ∧
    Gemini.emptyA2DResult.originalAnalog = some [] ∧
    Gemini.emptyA2DResult.encoded = [] ∧
    Gemini.emptyA2DResult.decodedAnalog = some [] ∧
    Gemini.emptyA2DResult.metrics.bitRate = "0 bps" ∧
    Gemini.emptyA2DResult.metrics.signalLevels = "256" := by
  have h1 : ("analog-to-digital" : String) ≠ "digital-to-digital" := by decide
  have h2 : ("analog-to-digital" : String) ≠ "digital-to-analog" := by decide
  refine ⟨?_, rfl, rfl, rfl, rfl, rfl⟩
  simp [Gemini.processTransmission, Gemini.processAnalogToDigital, Gemini.a2dCore,
    h1, h2, h]

/-- Witness for C7: the empty input itself parses to no samples. -/
theorem empty_analog_input_result_witness :
    Gemini.parseAnalog "" = [] ∧
    (Gemini.processTransmission zeroTrig zeroTrig "analog-to-digital" "pcm" "" =
      some Gemini.emptyA2DResult ∧
    Gemini.emptyA2DResult.originalAnalog = some [] ∧
    Gemini.emptyA2DResult.encoded = [] ∧
    Gemini.emptyA2DResult.decodedAnalog = some [] ∧
    Gemini.emptyA2DResult.metrics.bitRate = "0 bps" ∧
    Gemini.emptyA2DResult.metrics.signalLevels = "256") :=
  ⟨by simp [Gemini.parseAnalog, stripQuotes, scanTokens],
   empty_analog_input_result zeroTrig zeroTrig ""
     (by simp [Gemini.parseAnalog, stripQuotes, scanTokens])⟩

lemma Gemini.deltaEncodeGo_length (prev : ℚ) (xs : List ℚ) :
    (Gemini.deltaEncodeGo prev xs).length = xs.length := by
  induction xs generalizing prev with
  | nil => rfl
  | cons x rest ih => simp [Gemini.deltaEncodeGo, ih]

lemma Gemini.pcmEncode_length (av : List ℚ) :
    (Gemini.pcmEncode av).length = av.length := by
  simp [Gemini.pcmEncode, Gemini.normalizedOf]

/-- C8.  For a parsed sample sequence of length at least one, the delta
and adaptive-delta encodings emit one sign bit per successive
difference — length n − 1, nothing for the reference sample — while PCM
emits one level per sample, length n. -/
theorem a2d_encoded_lengths (av : List ℚ) (h : 1 ≤ av.length) :
    (Gemini.a2dCore "delta" av).encoded.length = av.length - 1 ∧
    (Gemini.a2dCore "adaptive-delta" av).encoded.length = av.length - 1 ∧
    (Gemini.a2dCore "pcm" av).encoded.length = av.length := by
  have h1 : ("delta" : String) ≠ "pcm" := by decide
  have h2 : ("adaptive-delta" : String) ≠ "pcm" := by decide
  obtain ⟨a, rest, rfl⟩ : ∃ a rest, av = a :: rest := by
    cases av with
    | nil => simp at h
    | cons a rest => exact ⟨a, rest, rfl⟩
  refine ⟨?_, ?_, ?_⟩ <;>
    simp [Gemini.a2dCore, Gemini.deltaEncode, Gemini.deltaEncodeGo_length,
      Gemini.pcmEncode_length, h1, h2]

/-- Witness for C8 on a two-sample sequence. -/
theorem a2d_encoded_lengths_witness :
    1 ≤ ([1, 2] : List ℚ).length ∧
    ((Gemini.a2dCore "delta" [1, 2]).encoded.length = ([1, 2] : List ℚ).length - 1 ∧
     (Gemini.a2dCore "adaptive-delta" [1, 2]).encoded.length =
       ([1, 2] : List ℚ).length - 1 ∧
     (Gemini.a2dCore "pcm" [1, 2]).encoded.length = ([1, 2] : List ℚ).length) :=
  ⟨by simp, a2d_encoded_lengths [1, 2] (by simp)⟩

/-- C9.  In analog-to-analog mode — for am, fm, pm and unknown tags
alike, in both variants — the `decodedAnalog` field of the result is
exactly the parsed original sample sequence; the approximate
demodulation lives only in the separate `demodulatedSignal` field, so
the reported decode round-trip is perfect by construction. -/
theorem a2a_decoded_is_original (s t : ℚ → ℚ → ℚ) (algorithm data : String) :
    (Lib.processAnalogToAnalog s t algorithm data).decodedAnalog =
      some ((Lib.parseAnalogValues data).map JsVal.num) ∧
    (Lib.processAnalogToAnalog s t algorithm data).originalAnalog =
      (Lib.processAnalogToAnalog s t algorithm data).decodedAnalog ∧
    (Gemini.processAnalogToAnalog s t algorithm data).decodedAnalog =
      some ((Gemini.parseAnalog data).map JsVal.num) ∧
    (Gemini.processAnalogToAnalog s t algorithm data).originalAnalog =
      (Gemini.processAnalogToAnalog s t algorithm data).decodedAnalog := by
  refine ⟨rfl, rfl, ?_, ?_⟩ <;>
    · unfold Gemini.processAnalogToAnalog
      by_cases hg : (Gemini.parseAnalog data).length = 0
      · have hnil := List.length_eq_zero.mp hg
        simp [hg, hnil, Gemini.emptyA2AResult]
      · simp [hg]

lemma Lib.manchesterEncode_nil : Lib.manchesterEncode [] = [] := rfl

lemma Lib.manchesterEncode_cons (b : JsVal) (bits : List JsVal) :
    Lib.manchesterEncode (b :: bits) =
      (if jseq b (num 1) = true then [num 0, num 1] else [num 1, num 0]) ++
        Lib.manchesterEncode bits := rfl

lemma Lib.manchesterEncode_length (bits : List JsVal) :
    (Lib.manchesterEncode bits).length = 2 * bits.length := by
  induction bits with
  | nil => rfl
  | cons b rest ih =>
    rw [Lib.manchesterEncode_cons]
    by_cases hb : jseq b (num 1) = true <;> simp [hb, ih] <;> omega

lemma Lib.manchesterDecode_encode (cs : List Char)
    (h : ∀ c ∈ cs, c = '0' ∨ c = '1') :
    Lib.manchesterDecode (Lib.manchesterEncode (cs.map charToJsVal)) = cs := by
  have hc1 : charToJsVal '1' = JsVal.num 1 := by decide
  have hc0 : charToJsVal '0' = JsVal.num 0 := by decide
  have he1 : JsVal.jseq (JsVal.num 1) (JsVal.num 1) = true := by decide
  have he0 : JsVal.jseq (JsVal.num 0) (JsVal.num 1) = false := by decide
  have he2 : JsVal.jseq (JsVal.num 0) (JsVal.num 0) = true := by decide
  have he3 : JsVal.jseq (JsVal.num 1) (JsVal.num 0) = false := by decide
  induction cs with
  | nil => rfl
  | cons c rest ih =>
    have hrest := ih (fun x hx => h x (List.mem_cons_of_mem c hx))
    rcases h c (List.mem_cons_self c rest) with hc | hc <;> subst hc <;>
      simp only [List.map_cons, hc0, hc1, Lib.manchesterEncode_cons, he0, he1,
        Bool.false_eq_true, if_true, if_false, ite_true, ite_false,
        List.cons_append, List.nil_append, Lib.manchesterDecode, he2, he3,
        Bool.and_self, Bool.and_false, Bool.false_and] <;>
      simpa [Lib.manchesterEncode, List.flatMap] using hrest

/-- C5.  For a bit string the Manchester encoding is exactly twice as
long as the input, and decoding the encoded sequence recovers the
original string exactly. -/
theorem manchester_round_trip (data : String)
    (h : ∀ c ∈ data.data, c = '0' ∨ c = '1') :
    (Lib.processDigitalToDigital "manchester" data).encoded.length = 2 * data.length ∧
    (Lib.processDigitalToDigital "manchester" data).decoded = some data := by
  have h1 : ("manchester" : String) ≠ "nrz-l" := by decide
  have h2 : ("manchester" : String) ≠ "nrz-i" := by decide
  constructor
  · have he : (Lib.processDigitalToDigital "manchester" data).encoded =
        Lib.manchesterEncode (parseBits data) := by
      simp [Lib.processDigitalToDigital, h1, h2]
    rw [he, Lib.manchesterEncode_length, parseBits, List.length_map]
    rfl
  · have hd : (Lib.processDigitalToDigital "manchester" data).decoded =
        some (String.mk (Lib.manchesterDecode
          (Lib.manchesterEncode (parseBits data)))) := by
      simp [Lib.processDigitalToDigital, h1, h2]
    rw [hd, parseBits, Lib.manchesterDecode_encode data.data h]

/-- Witness for C5 at the bit string "10". -/
theorem manchester_round_trip_witness :
    (∀ c ∈ ("10" : String).data, c = '0' ∨ c = '1') ∧
    ((Lib.processDigitalToDigital "manchester" "10").encoded.length =
        2 * ("10" : String).length ∧
      (Lib.processDigitalToDigital "manchester" "10").decoded = some "10") :=
  ⟨by decide, manchester_round_trip "10" (by decide)⟩

lemma Lib.demodChunks_nil (algo : String) : Lib.demodChunks algo [] = [] := by
  rw [Lib.demodChunks]

lemma Lib.demodChunks_cons (algo : String) (x : JsVal) (xs : List JsVal) :
    Lib.demodChunks algo (x :: xs) =
      Lib.demodBit algo (List.take 10 (x :: xs)) ::
        Lib.demodChunks algo (List.drop 10 (x :: xs)) := by
  rw [Lib.demodChunks]

lemma Lib.demodChunks_chunk (algo : String) (v : JsVal) (rest : List JsVal) :
    Lib.demodChunks algo (List.replicate 10 v ++ rest) =
      Lib.demodBit algo (List.replicate 10 v) :: Lib.demodChunks algo rest := by
  have hsplit : List.replicate 10 v ++ rest = v :: (List.replicate 9 v ++ rest) := by
    simp [List.replicate_succ]
  rw [hsplit, Lib.demodChunks_cons, ← hsplit,
    List.take_left' (by simp : (List.replicate 10 v).length = 10),
    List.drop_left' (by simp : (List.replicate 10 v).length = 10)]

lemma Lib.demodBit_ask_one : Lib.demodBit "ask" (List.replicate 10 (num 1)) = '1' := by
  norm_num [Lib.demodBit, Lib.segmentAvg, List.replicate_succ,
    JsVal.jadd, JsVal.jabs, JsVal.jdiv, JsVal.jgt]

lemma Lib.demodBit_ask_zero :
    Lib.demodBit "ask" (List.replicate 10 (num (3/10))) = '0' := by
  have hb : |((3:ℚ)/10)| = 3/10 := abs_of_nonneg (by norm_num)
  norm_num [Lib.demodBit, Lib.segmentAvg, List.replicate_succ,
    JsVal.jadd, JsVal.jabs, JsVal.jdiv, JsVal.jgt, hb]

lemma Lib.askModulate_nil : Lib.askModulate [] = [] := rfl

lemma Lib.askModulate_cons (b : JsVal) (bits : List JsVal) :
    Lib.askModulate (b :: bits) =
      List.replicate 10 (if jseq b (num 1) = true then num 1 else num (3/10)) ++
        Lib.askModulate bits := rfl

lemma Lib.askDemod_encode (cs : List Char) (h : ∀ c ∈ cs, c = '0' ∨ c = '1') :
    Lib.demodChunks "ask" (Lib.askModulate (cs.map charToJsVal)) = cs := by
  have hc1 : charToJsVal '1' = JsVal.num 1 := by decide
  have hc0 : charToJsVal '0' = JsVal.num 0 := by decide
  have he1 : JsVal.jseq (JsVal.num 1) (JsVal.num 1) = true := by decide
  have he0 : JsVal.jseq (JsVal.num 0) (JsVal.num 1) = false := by decide
  induction cs with
  | nil => rw [List.map_nil, Lib.askModulate_nil, Lib.demodChunks_nil]
  | cons c rest ih =>
    have hrest := ih (fun x hx => h x (List.mem_cons_of_mem c hx))
    rcases h c (List.mem_cons_self c rest) with hc | hc <;> subst hc
    · rw [List.map_cons, hc0, Lib.askModulate_cons, he0]
      rw [if_neg (by simp), Lib.demodChunks_chunk, Lib.demodBit_ask_zero, hrest]
    · rw [List.map_cons, hc1, Lib.askModulate_cons, he1]
      rw [if_pos rfl, Lib.demodChunks_chunk, Lib.demodBit_ask_one, hrest]

/-- C10.  ASK modulation holds each bit for ten flat samples (amplitude
1 for a 1 bit, 0.3 for a 0 bit), and demodulation — the mean absolute
amplitude of each ten-sample window against the 0.6 threshold —
recovers every bit, so the decoded string equals the input exactly. -/
theorem ask_round_trip (s : ℚ → ℚ → ℚ) (data : String)
    (h : ∀ c ∈ data.data, c = '0' ∨ c = '1') :
    (Lib.processDigitalToAnalog s "ask" data).encoded =
      Lib.askModulate (parseBits data) ∧
    (Lib.processDigitalToAnalog s "ask" data).decoded = some data := by
  constructor
  · simp [Lib.processDigitalToAnalog]
  · have hd : (Lib.processDigitalToAnalog s "ask" data).decoded =
        some (String.mk (Lib.demodChunks "ask" (Lib.askModulate (parseBits data)))) := by
      simp [Lib.processDigitalToAnalog]
    rw [hd, parseBits, Lib.askDemod_encode data.data h]

/-- Witness for C10 at the bit string "10". -/
theorem ask_round_trip_witness :
    (∀ c ∈ ("10" : String).data, c = '0' ∨ c = '1') ∧
    ((Lib.processDigitalToAnalog zeroTrig "ask" "10").encoded =
        Lib.askModulate (parseBits "10") ∧
      (Lib.processDigitalToAnalog zeroTrig "ask" "10").decoded = some "10") :=
  ⟨by decide, ask_round_trip zeroTrig "10" (by decide)⟩

lemma foldl_min_le_init (a : ℚ) (l : List ℚ) : l.foldl min a ≤ a := by
  induction l generalizing a with
  | nil => exact le_refl a
  | cons x xs ih => exact le_trans (ih (min a x)) (min_le_left a x)

lemma foldl_min_le_mem {v : ℚ} (a : ℚ) (l : List ℚ) (h : v ∈ l) :
    l.foldl min a ≤ v := by
  induction l generalizing a with
  | nil => cases h
  | cons x xs ih =>
    rcases List.mem_cons.mp h with rfl | hv
    · exact le_trans (foldl_min_le_init (min a v) xs) (min_le_right a v)
    · exact ih (min a x) hv

lemma init_le_foldl_max (a : ℚ) (l : List ℚ) : a ≤ l.foldl max a := by
  induction l generalizing a with
  | nil => exact le_refl a
  | cons x xs ih => exact le_trans (le_max_left a x) (ih (max a x))

lemma mem_le_foldl_max {v : ℚ} (a : ℚ) (l : List ℚ) (h : v ∈ l) :
    v ≤ l.foldl max a := by
  induction l generalizing a with
  | nil => cases h
  | cons x xs ih =>
    rcases List.mem_cons.mp h with rfl | hv
    · exact le_trans (le_max_right a v) (init_le_foldl_max (max a v) xs)
    · exact ih (max a x) hv

lemma Gemini.jsMin_le {v : ℚ} {l : List ℚ} (h : v ∈ l) : Gemini.jsMin l ≤ v := by
  cases l with
  | nil => cases h
  | cons x xs =>
    rcases List.mem_cons.mp h with rfl | hv
    · exact foldl_min_le_init v xs
    · exact foldl_min_le_mem x xs hv

lemma Gemini.le_jsMax {v : ℚ} {l : List ℚ} (h : v ∈ l) : v ≤ Gemini.jsMax l := by
  cases l with
  | nil => cases h
  | cons x xs =>
    rcases List.mem_cons.mp h with rfl | hv
    · exact init_le_foldl_max v xs
    · exact mem_le_foldl_max x xs hv

lemma jroundQ_le (x : ℚ) : ((⌊x + 1/2⌋ : ℤ) : ℚ) ≤ x + 1/2 := Int.floor_le _

lemma lt_jroundQ (x : ℚ) : x - 1/2 < ((⌊x + 1/2⌋ : ℤ) : ℚ) := by
  have h := Int.sub_one_lt_floor (x + 1/2)
  linarith

lemma jroundQ_err (x : ℚ) : |((⌊x + 1/2⌋ : ℤ) : ℚ) - x| ≤ 1/2 := by
  have h1 := jroundQ_le x
  have h2 := lt_jroundQ x
  rw [abs_le]
  constructor <;> linarith

lemma jroundQ_bounds (x : ℚ) (h0 : 0 ≤ x) (h255 : x ≤ 255) :
    (0:ℚ) ≤ ((⌊x + 1/2⌋ : ℤ) : ℚ) ∧ ((⌊x + 1/2⌋ : ℤ) : ℚ) ≤ 255 := by
  constructor
  · have hz : (0:ℤ) ≤ ⌊x + 1/2⌋ := Int.le_floor.mpr (by push_cast; linarith)
    exact_mod_cast hz
  · have hz : ⌊x + 1/2⌋ ≤ 255 := by
      by_contra hc
      push_neg at hc
      have h256 : (256:ℚ) ≤ ((⌊x + 1/2⌋ : ℤ) : ℚ) := by exact_mod_cast hc
      have := jroundQ_le x
      linarith
    exact_mod_cast hz

lemma Gemini.pcmEncode_mem (av : List ℚ) (l : ℚ) (hl : l ∈ Gemini.pcmEncode av) :
    ∃ v ∈ av, l = ((⌊(v - Gemini.jsMin av) / Gemini.a2dRange av * 255 + 1/2⌋ : ℤ) : ℚ) := by
  simp only [Gemini.pcmEncode, Gemini.normalizedOf, List.map_map, List.mem_map,
    Function.comp] at hl
  obtain ⟨v, hv, heq⟩ := hl
  exact ⟨v, hv, heq.symm⟩

lemma Gemini.pcmEncode_bounds (av : List ℚ)
    (h : Gemini.jsMin av ≠ Gemini.jsMax av) (l : ℚ) (hl : l ∈ Gemini.pcmEncode av) :
    (∃ k : ℤ, l = (k : ℚ)) ∧ 0 ≤ l ∧ l ≤ 255 := by
  have hlt : Gemini.jsMin av < Gemini.jsMax av := by
    rcases av with _ | ⟨x, xs⟩
    · exact absurd rfl h
    · exact lt_of_le_of_ne
        (le_trans (Gemini.jsMin_le (List.mem_cons_self x xs))
          (Gemini.le_jsMax (List.mem_cons_self x xs))) h
  have hrange : Gemini.a2dRange av = Gemini.jsMax av - Gemini.jsMin av := by
    unfold Gemini.a2dRange
    rw [if_neg (by intro hz; exact h (by linarith))]
  have hrpos : 0 < Gemini.a2dRange av := by rw [hrange]; linarith
  obtain ⟨v, hv, rfl⟩ := Gemini.pcmEncode_mem av l hl
  have hvmin : Gemini.jsMin av ≤ v := Gemini.jsMin_le hv
  have hvmax : v ≤ Gemini.jsMax av := Gemini.le_jsMax hv
  have hx0 : 0 ≤ (v - Gemini.jsMin av) / Gemini.a2dRange av * 255 := by
    have := div_nonneg (by linarith : (0:ℚ) ≤ v - Gemini.jsMin av) (le_of_lt hrpos)
    linarith
  have hx255 : (v - Gemini.jsMin av) / Gemini.a2dRange av * 255 ≤ 255 := by
    have hle1 : (v - Gemini.jsMin av) / Gemini.a2dRange av ≤ 1 := by
      rw [div_le_one hrpos, hrange]
      linarith
    linarith
  exact ⟨⟨_, rfl⟩, jroundQ_bounds _ hx0 hx255⟩

/-- C4.  For a sample sequence whose minimum differs from its maximum,
every PCM level is an integer in `[0, 255]`, every reconstructed value
lies inside the observed `[min, max]` interval, and every reconstructed
value differs from its original by at most the quantization bound
`range / 255`. -/
theorem pcm_quantization_bounds (av : List ℚ)
    (h : Gemini.jsMin av ≠ Gemini.jsMax av) :
    (Gemini.a2dCore "pcm" av).encoded = (Gemini.pcmEncode av).map JsVal.num ∧
    (Gemini.a2dCore "pcm" av).decodedAnalog =
      some ((Gemini.pcmDecode av).map JsVal.num) ∧
    (∀ l ∈ Gemini.pcmEncode av, (∃ k : ℤ, l = (k : ℚ)) ∧ 0 ≤ l ∧ l ≤ 255) ∧
    (∀ d ∈ Gemini.pcmDecode av, Gemini.jsMin av ≤ d ∧ d ≤ Gemini.jsMax av) ∧
    List.Forall₂
      (fun d v => |d - v| ≤ (Gemini.jsMax av - Gemini.jsMin av) / 255)
      (Gemini.pcmDecode av) av := by
  have hne : av ≠ [] := by
    intro hav
    exact h (by simp [hav, Gemini.jsMin, Gemini.jsMax])
  have hlen : av.length ≠ 0 := by simpa [List.length_eq_zero] using hne
  have hlt : Gemini.jsMin av < Gemini.jsMax av := by
    rcases av with _ | ⟨x, xs⟩
    · exact absurd rfl h
    · exact lt_of_le_of_ne
        (le_trans (Gemini.jsMin_le (List.mem_cons_self x xs))
          (Gemini.le_jsMax (List.mem_cons_self x xs))) h
  have hrange : Gemini.a2dRange av = Gemini.jsMax av - Gemini.jsMin av := by
    unfold Gemini.a2dRange
    rw [if_neg (by intro hz; exact h (by linarith))]
  have hrpos : 0 < Gemini.a2dRange av := by rw [hrange]; linarith
  refine ⟨by simp [Gemini.a2dCore, hlen], by simp [Gemini.a2dCore, hlen],
    fun l hl => Gemini.pcmEncode_bounds av h l hl, ?_, ?_⟩
  · intro d hd
    simp only [Gemini.pcmDecode, List.mem_map] at hd
    obtain ⟨l, hl, rfl⟩ := hd
    obtain ⟨_, hl0, hl255⟩ := Gemini.pcmEncode_bounds av h l hl
    constructor
    · have : 0 ≤ l / 255 * Gemini.a2dRange av :=
        mul_nonneg (by positivity) (le_of_lt hrpos)
      linarith [hrange]
    · have h1 : l / 255 ≤ 1 := by linarith [div_le_one (by norm_num : (0:ℚ) < 255) |>.mpr hl255]
      have h2 : l / 255 * Gemini.a2dRange av ≤ Gemini.a2dRange av := by
        nlinarith
      linarith [hrange]
  · have hdec : Gemini.pcmDecode av =
        av.map (fun v =>
          ((⌊(v - Gemini.jsMin av) / Gemini.a2dRange av * 255 + 1/2⌋ : ℤ) : ℚ) /
            255 * Gemini.a2dRange av + Gemini.jsMin av) := by
      simp [Gemini.pcmDecode, Gemini.pcmEncode, Gemini.normalizedOf, List.map_map,
        Function.comp]
    rw [hdec, List.forall₂_map_left_iff]
    rw [List.forall₂_same]
    intro v hv
    have hvmin : Gemini.jsMin av ≤ v := Gemini.jsMin_le hv
    set m := Gemini.jsMin av with hm
    set R := Gemini.a2dRange av with hR
    set k : ℚ := ((⌊(v - m) / R * 255 + 1/2⌋ : ℤ) : ℚ) with hk
    have herr : |k - (v - m) / R * 255| ≤ 1/2 := jroundQ_err _
    have hval : k / 255 * R + m - v = (k - (v - m) / R * 255) * (R / 255) := by
      field_simp
      ring
    rw [hval, abs_mul, abs_of_pos (by positivity : (0:ℚ) < R / 255)]
    rw [← hrange]
    have : |k - (v - m) / R * 255| * (R / 255) ≤ (1/2) * (R / 255) := by
      apply mul_le_mul_of_nonneg_right herr (by positivity)
    linarith [mul_pos (by norm_num : (0:ℚ) < 1/2) (by positivity : (0:ℚ) < R / 255)]

/-- Witness for C4 on the two-sample sequence `[0, 1]`. -/
theorem pcm_quantization_bounds_witness :
    (Gemini.jsMin [0, 1] ≠ Gemini.jsMax [0, 1]) ∧
    ((Gemini.a2dCore "pcm" [0, 1]).encoded =
        (Gemini.pcmEncode [0, 1]).map JsVal.num ∧
      (Gemini.a2dCore "pcm" [0, 1]).decodedAnalog =
        some ((Gemini.pcmDecode [0, 1]).map JsVal.num) ∧
      (∀ l ∈ Gemini.pcmEncode [0, 1], (∃ k : ℤ, l = (k : ℚ)) ∧ 0 ≤ l ∧ l ≤ 255) ∧
      (∀ d ∈ Gemini.pcmDecode [0, 1],
        Gemini.jsMin [0, 1] ≤ d ∧ d ≤ Gemini.jsMax [0, 1]) ∧
      List.Forall₂
        (fun d v => |d - v| ≤ (Gemini.jsMax [0, 1] - Gemini.jsMin [0, 1]) / 255)
        (Gemini.pcmDecode [0, 1]) [0, 1]) :=
  ⟨by norm_num [Gemini.jsMin, Gemini.jsMax],
   pcm_quantization_bounds [0, 1] (by norm_num [Gemini.jsMin, Gemini.jsMax])⟩
